import Mathlib

/-!
# Verification of the Brainfuck interpreter (`brainfuck.go`)

This file is a shallow embedding of the Go package `brainfuck` into Lean 4,
together with proofs about the embedded definitions.

Modelling conventions:

* Go source strings are byte sequences.  We model a source string as a
  `List Char` where each `Char` stands for one byte; the interpreter
  dispatches on single bytes (`code[index]`) and all recognised
  instruction characters are ASCII, so this is faithful.  (`Validate`
  iterates over runes, but a byte equal to `'['` or `']'` can only occur
  as a whole ASCII rune, so both iterations see the same bracket
  positions.)
* Go `byte` cells are modelled as `Nat` with explicit `% 256` at each
  mutation; the tape is a total function `Nat → Nat` accessed only at
  indices below `TapeLength`.
* The Go `int` instruction index can be set to `-1` by the `]` handler,
  so it is modelled as `Int`.
* Go run-time panics (index out of range, pop of an empty stack) are
  modelled by `Option`/a `crash` outcome; the fuelled driver `runLoop`
  returns `outOfFuel` when the fuel is exhausted, so a definite `ok`,
  `err` or `crash` answer for some fuel is a faithful statement about
  the Go program.
-/

set_option autoImplicit false

namespace BF

/-- `TapeLength` from the Go source: length of the Brainfuck tape. -/
def TapeLength : Nat := 30000

/-- The two syntax errors `Validate` can return
(`"closing brace without matched opening brace"` and
`"opening brace without matching closing brace"`). -/
inductive SyntaxError where
  | unmatchedClose
  | unmatchedOpen
deriving DecidableEq

/-- The loop of Go `Validate`: scan the remaining code `cs`, carrying the
stack `st` of positions of `'['` and the position `i` of the head of `cs`.
A `']'` with an empty stack fails immediately with `unmatchedClose`; after
the scan a non-empty stack fails with `unmatchedOpen`. -/
def validateGo : List Char → List Nat → Nat → Option SyntaxError
  | [], st, _ => if st.length = 0 then none else some .unmatchedOpen
  | c :: rest, st, i =>
    if c = '[' then validateGo rest (i :: st) (i + 1)
    else if c = ']' then
      match st with
      | [] => some .unmatchedClose
      | _ :: st' => validateGo rest st' (i + 1)
    else validateGo rest st (i + 1)

/-- Go `Validate`: runs the scan with an empty stack. -/
def Validate (code : List Char) : Option SyntaxError :=
  validateGo code [] 0

/-- The validator where the position stack is replaced by its length:
only the length is observable in the result. -/
def valSpec : List Char → Nat → Option SyntaxError
  | [], k => if k = 0 then none else some .unmatchedOpen
  | c :: rest, k =>
    if c = '[' then valSpec rest (k + 1)
    else if c = ']' then
      match k with
      | 0 => some .unmatchedClose
      | k' + 1 => valSpec rest k'
    else valSpec rest k

/-- Bracket contribution of one character: `+1` for `'['`, `-1` for `']'`,
`0` otherwise. -/
def charDelta (c : Char) : Int :=
  if c = '[' then 1 else if c = ']' then -1 else 0

/-- `dI cs n` is the bracket balance (count of `'['` minus count of `']'`)
of the length-`n` prefix of `cs`. -/
def dI (cs : List Char) (n : Nat) : Int :=
  ((cs.take n).count '[' : Int) - ((cs.take n).count ']' : Int)

/-- The standard balanced-brackets property: every prefix has at least as
many `'['` as `']'`, and the whole string has equally many. -/
def Balanced (cs : List Char) : Prop :=
  (∀ n, n ≤ cs.length → 0 ≤ dI cs n) ∧ dI cs cs.length = 0

instance (cs : List Char) : Decidable (Balanced cs) := by
  unfold Balanced
  exact instDecidableAnd

theorem dI_zero (cs : List Char) : dI cs 0 = 0 := by
  simp [dI]

theorem dI_cons (c : Char) (rest : List Char) (n : Nat) :
    dI (c :: rest) (n + 1) = charDelta c + dI rest n := by
  simp only [dI, List.take_succ_cons, List.count_cons, charDelta]
  by_cases h1 : c = '['
  · simp [h1]
    ring
  · by_cases h2 : c = ']'
    · simp [h1, h2]
      ring
    · simp [h1, h2, Ne.symm h1, Ne.symm h2]

theorem ball_succ_iff {L : Nat} {P : Nat → Prop} :
    (∀ n, n ≤ L + 1 → P n) ↔ P 0 ∧ (∀ m, m ≤ L → P (m + 1)) := by
  constructor
  · intro h
    exact ⟨h 0 (by omega), fun m hm => h (m + 1) (by omega)⟩
  · rintro ⟨h0, h⟩ n hn
    cases n with
    | zero => exact h0
    | succ m => exact h m (by omega)

theorem bex_succ_iff {L : Nat} {P : Nat → Prop} :
    (∃ n, n ≤ L + 1 ∧ P n) ↔ P 0 ∨ (∃ m, m ≤ L ∧ P (m + 1)) := by
  constructor
  · rintro ⟨n, hn, hp⟩
    cases n with
    | zero => exact Or.inl hp
    | succ m => exact Or.inr ⟨m, by omega, hp⟩
  · rintro (h0 | ⟨m, hm, hp⟩)
    · exact ⟨0, by omega, h0⟩
    · exact ⟨m + 1, by omega, hp⟩

theorem validateGo_eq_valSpec :
    ∀ (cs : List Char) (st : List Nat) (i : Nat),
      validateGo cs st i = valSpec cs st.length := by
  intro cs
  induction cs with
  | nil =>
    intro st i
    simp [validateGo, valSpec]
  | cons c rest ih =>
    intro st i
    by_cases hc : c = '['
    · simpa [validateGo, valSpec, hc] using ih (i :: st) (i + 1)
    · by_cases hc2 : c = ']'
      · cases st with
        | nil => simp [validateGo, valSpec, hc, hc2]
        | cons p st' =>
          simpa [validateGo, valSpec, hc, hc2] using ih st' (i + 1)
      · simpa [validateGo, valSpec, hc, hc2] using ih st (i + 1)

theorem valSpec_none_iff :
    ∀ (cs : List Char) (k : Nat),
      valSpec cs k = none ↔
        ((∀ n, n ≤ cs.length → 0 ≤ dI cs n + k) ∧ dI cs cs.length + k = 0) := by
  intro cs
  induction cs with
  | nil =>
    intro k
    simp only [valSpec, List.length_nil]
    constructor
    · intro h
      have hk : k = 0 := by by_contra hk; simp [hk] at h
      subst hk
      refine ⟨fun n hn => ?_, by rw [dI_zero]; omega⟩
      interval_cases n
      rw [dI_zero]; omega
    · rintro ⟨-, h⟩
      rw [dI_zero] at h
      have : k = 0 := by omega
      simp [this]
  | cons c rest ih =>
    intro k
    have hlen : (c :: rest).length = rest.length + 1 := rfl
    by_cases hc : c = '['
    · have hδ : charDelta c = 1 := by simp [charDelta, hc]
      have hv : valSpec (c :: rest) k = valSpec rest (k + 1) := by
        simp [valSpec, hc]
      rw [hv, ih (k + 1), hlen, ball_succ_iff]
      simp only [dI_cons, dI_zero, hδ]
      constructor
      · rintro ⟨h1, h2⟩
        exact ⟨⟨by omega, fun m hm => by have := h1 m hm; omega⟩, by omega⟩
      · rintro ⟨⟨-, h1⟩, h2⟩
        exact ⟨fun m hm => by have := h1 m hm; omega, by omega⟩
    · by_cases hc2 : c = ']'
      · have hδ : charDelta c = -1 := by simp [charDelta, hc, hc2]
        cases k with
        | zero =>
          have hv : valSpec (c :: rest) 0 = some .unmatchedClose := by
            simp [valSpec, hc, hc2]
          rw [hv, hlen]
          simp only [dI_cons, hδ]
          constructor
          · intro h; cases h
          · rintro ⟨h1, -⟩
            have := h1 1 (by omega)
            rw [show (1 : Nat) = 0 + 1 from rfl] at this
            rw [dI_cons, hδ, dI_zero] at this
            omega
        | succ k' =>
          have hv : valSpec (c :: rest) (k' + 1) = valSpec rest k' := by
            simp [valSpec, hc, hc2]
          rw [hv, ih k', hlen, ball_succ_iff]
          simp only [dI_cons, dI_zero, hδ]
          constructor
          · rintro ⟨h1, h2⟩
            exact ⟨⟨by omega, fun m hm => by have := h1 m hm; omega⟩, by omega⟩
          · rintro ⟨⟨-, h1⟩, h2⟩
            exact ⟨fun m hm => by have := h1 m hm; omega, by omega⟩
      · have hδ : charDelta c = 0 := by simp [charDelta, hc, hc2]
        have hv : valSpec (c :: rest) k = valSpec rest k := by
          simp [valSpec, hc, hc2]
        rw [hv, ih k, hlen, ball_succ_iff]
        simp only [dI_cons, dI_zero, hδ]
        constructor
        · rintro ⟨h1, h2⟩
          exact ⟨⟨by omega, fun m hm => by have := h1 m hm; omega⟩, by omega⟩
        · rintro ⟨⟨-, h1⟩, h2⟩
          exact ⟨fun m hm => by have := h1 m hm; omega, by omega⟩

theorem valSpec_close_iff :
    ∀ (cs : List Char) (k : Nat),
      valSpec cs k = some .unmatchedClose ↔
        ∃ n, n ≤ cs.length ∧ dI cs n + k < 0 := by
  intro cs
  induction cs with
  | nil =>
    intro k
    simp only [valSpec, List.length_nil]
    constructor
    · intro h
      by_cases hk : k = 0 <;> simp [hk] at h
    · rintro ⟨n, hn, hlt⟩
      interval_cases n
      rw [dI_zero] at hlt
      omega
  | cons c rest ih =>
    intro k
    have hlen : (c :: rest).length = rest.length + 1 := rfl
    by_cases hc : c = '['
    · have hδ : charDelta c = 1 := by simp [charDelta, hc]
      have hv : valSpec (c :: rest) k = valSpec rest (k + 1) := by
        simp [valSpec, hc]
      rw [hv, ih (k + 1), hlen, bex_succ_iff]
      simp only [dI_cons, dI_zero, hδ]
      constructor
      · rintro ⟨m, hm, hlt⟩
        exact Or.inr ⟨m, hm, by omega⟩
      · rintro (h0 | ⟨m, hm, hlt⟩)
        · omega
        · exact ⟨m, hm, by omega⟩
    · by_cases hc2 : c = ']'
      · have hδ : charDelta c = -1 := by simp [charDelta, hc, hc2]
        cases k with
        | zero =>
          have hv : valSpec (c :: rest) 0 = some .unmatchedClose := by
            simp [valSpec, hc, hc2]
          rw [hv, hlen]
          constructor
          · intro h
            refine ⟨1, by omega, ?_⟩
            rw [show (1 : Nat) = 0 + 1 from rfl, dI_cons, hδ, dI_zero]
            omega
          · intro h; rfl
        | succ k' =>
          have hv : valSpec (c :: rest) (k' + 1) = valSpec rest k' := by
            simp [valSpec, hc, hc2]
          rw [hv, ih k', hlen, bex_succ_iff]
          simp only [dI_cons, dI_zero, hδ]
          constructor
          · rintro ⟨m, hm, hlt⟩
            exact Or.inr ⟨m, hm, by omega⟩
          · rintro (h0 | ⟨m, hm, hlt⟩)
            · omega
            · exact ⟨m, hm, by omega⟩
      · have hδ : charDelta c = 0 := by simp [charDelta, hc, hc2]
        have hv : valSpec (c :: rest) k = valSpec rest k := by
          simp [valSpec, hc, hc2]
        rw [hv, ih k, hlen, bex_succ_iff]
        simp only [dI_cons, dI_zero, hδ]
        constructor
        · rintro ⟨m, hm, hlt⟩
          exact Or.inr ⟨m, hm, by omega⟩
        · rintro (h0 | ⟨m, hm, hlt⟩)
          · omega
          · exact ⟨m, hm, by omega⟩

theorem valSpec_open_iff (cs : List Char) (k : Nat) :
    valSpec cs k = some .unmatchedOpen ↔
      ((∀ n, n ≤ cs.length → 0 ≤ dI cs n + k) ∧ 0 < dI cs cs.length + k) := by
  constructor
  · intro h
    have hclose : valSpec cs k ≠ some .unmatchedClose := by rw [h]; simp
    rw [Ne, valSpec_close_iff] at hclose
    push_neg at hclose
    have hball : ∀ n, n ≤ cs.length → 0 ≤ dI cs n + k := by
      intro n hn
      have := hclose n hn
      omega
    refine ⟨hball, ?_⟩
    have hnone : valSpec cs k ≠ none := by rw [h]; simp
    rw [Ne, valSpec_none_iff] at hnone
    have := hball cs.length (le_refl _)
    by_contra hfin
    exact hnone ⟨hball, by omega⟩
  · rintro ⟨hball, hfin⟩
    match hv : valSpec cs k with
    | none =>
      rw [valSpec_none_iff] at hv
      omega
    | some .unmatchedClose =>
      rw [valSpec_close_iff] at hv
      obtain ⟨n, hn, hlt⟩ := hv
      have := hball n hn
      omega
    | some .unmatchedOpen => rfl

theorem validate_none_iff (code : List Char) :
    Validate code = none ↔ Balanced code := by
  have hV : Validate code = valSpec code 0 := validateGo_eq_valSpec code [] 0
  rw [hV, valSpec_none_iff]
  unfold Balanced
  simp only [Nat.cast_zero, add_zero]

/-- **C1.** `Validate` succeeds exactly on the strings whose `[` and `]`
form a properly nested, fully matched bracket sequence (the standard
balanced-brackets property: every prefix has at least as many `[` as `]`,
and the totals agree).  It returns the unmatched-close error exactly when
some `]` appears with no open `[` pending (a prefix with negative bracket
balance), and the unmatched-open error exactly when no such prefix exists
but openers remain pending after the full scan. -/
theorem c1_validate_balanced (code : List Char) :
    (Validate code = none ↔ Balanced code) ∧
    (Validate code = some .unmatchedClose ↔
      ∃ n, n ≤ code.length ∧ dI code n < 0) ∧
    (Validate code = some .unmatchedOpen ↔
      (∀ n, n ≤ code.length → 0 ≤ dI code n) ∧ dI code code.length ≠ 0) := by
  have hV : Validate code = valSpec code 0 := validateGo_eq_valSpec code [] 0
  refine ⟨validate_none_iff code, ?_, ?_⟩
  · rw [hV, valSpec_close_iff]
    simp only [Nat.cast_zero, add_zero]
  · rw [hV, valSpec_open_iff]
    simp only [Nat.cast_zero, add_zero]
    constructor
    · rintro ⟨h1, h2⟩
      exact ⟨h1, by omega⟩
    · rintro ⟨h1, h2⟩
      refine ⟨h1, ?_⟩
      have := h1 code.length (le_refl _)
      omega

/-- The engine state: the Go package's global variables `tape`, `pointer`,
`index` and `loopStack`, plus explicit input and output streams standing
for stdin and stdout.  The tape is a total function accessed only below
`TapeLength`; cells are bytes kept reduced modulo 256.  The Go `int`
instruction index is an `Int` (the `]` handler can set it to `-1`). -/
structure EngState where
  tape : Nat → Nat
  pointer : Nat
  index : Int
  loopStack : List Nat
  input : List Nat
  output : List Nat

/-- Go `MoveLeft`: move the pointer left, wrapping from `0` to
`TapeLength - 1`. -/
def MoveLeft (s : EngState) : EngState :=
  if s.pointer = 0 then { s with pointer := TapeLength - 1 }
  else { s with pointer := s.pointer - 1 }

/-- Go `MoveRight`: move the pointer right, wrapping from `TapeLength - 1`
to `0`. -/
def MoveRight (s : EngState) : EngState :=
  if s.pointer = TapeLength - 1 then { s with pointer := 0 }
  else { s with pointer := s.pointer + 1 }

/-- Go `Increment`: `tape[pointer]++` on a byte cell (wraps modulo 256). -/
def Increment (s : EngState) : EngState :=
  { s with
    tape := fun i => if i = s.pointer then (s.tape s.pointer + 1) % 256 else s.tape i }

/-- Go `Decrement`: `tape[pointer]--` on a byte cell (wraps modulo 256;
adding 255 is subtracting 1 modulo 256). -/
def Decrement (s : EngState) : EngState :=
  { s with
    tape := fun i => if i = s.pointer then (s.tape s.pointer + 255) % 256 else s.tape i }

/-- Go `Output`: print the character value of the cell under the pointer. -/
def Output (s : EngState) : EngState :=
  { s with output := s.output ++ [s.tape s.pointer] }

/-- Go `Input`: read one character from stdin into the cell under the
pointer; on exhausted input `fmt.Scanf` assigns nothing. -/
def Input (s : EngState) : EngState :=
  match s.input with
  | [] => s
  | b :: rest =>
    { s with
      tape := fun i => if i = s.pointer then b % 256 else s.tape i
      input := rest }

/-- Go `ClearTape`: zero every tape cell and reset the pointer to 0;
the instruction index and the loop stack are not touched. -/
def ClearTape (s : EngState) : EngState :=
  { s with tape := fun _ => 0, pointer := 0 }

/-- The `start` adjustment at the top of Go `FormatCells`:
a negative start becomes `TapeLength + start - 1`. -/
def wrapStart (start : Int) : Int :=
  if start < 0 then TapeLength + start - 1 else start

/-- The `end` adjustment at the top of Go `FormatCells`:
an end at or past the tape length becomes `end - TapeLength`. -/
def wrapEnd (e : Int) : Int :=
  if e ≥ TapeLength then e - TapeLength else e

/-- The loop of Go `FormatCells`: `for i := start; i != stop; i++`, where
inside the body `i` is reset to `0` once it is at least `TapeLength`.
Returns the list of tape indices visited, or `none` when `fuel` runs out
(the Go loop would keep running). -/
def windowLoop : Nat → Int → Int → Option (List Int)
  | 0, _, _ => none
  | fuel + 1, i, stop =>
    if i = stop then some []
    else
      let j := if i ≥ TapeLength then 0 else i
      match windowLoop fuel (j + 1) stop with
      | some rest => some (j :: rest)
      | none => none

/-- Fuel sufficient for every call of `FormatCells` the interpreter makes
(at most one wrap plus one full pass over the tape). -/
def windowFuel : Nat := 2 * TapeLength + 2

/-- The indices visited by Go `FormatCells start end` after its two wrap
adjustments, or `none` if its loop would not terminate. -/
def formatIndices (start e : Int) : Option (List Int) :=
  windowLoop windowFuel (wrapStart start) (wrapEnd e + 1)

/-- Go `FormatCells` as index/value pairs: the cells it formats, each
paired with its tape index.  `none` when the loop does not terminate or
when it reads `tape[i]` out of range (a Go panic). -/
def formatPairs (tape : Nat → Nat) (start e : Int) : Option (List (Int × Nat)) :=
  match formatIndices start e with
  | none => none
  | some l =>
    if ∀ i ∈ l, 0 ≤ i ∧ i < (TapeLength : Int) then
      some (l.map fun i => (i, tape i.toNat))
    else none

/-- `c` is an ASCII lowercase letter (`[a-z]` in the Go regex). -/
def isLowerAZ (c : Char) : Bool := 'a' ≤ c && c ≤ 'z'

/-- `c` is an ASCII digit (`[0-9]` in the Go regex). -/
def isDigit09 (c : Char) : Bool := '0' ≤ c && c ≤ '9'

/-- The Go regex `SpecialInstructionRegex`, anchored at position `i` of
the code (the dispatch already guarantees `code[i] = '!'`): two bangs and
a space, then a maximal nonempty run of lowercase letters, then a maximal
(possibly empty) run of digits. -/
def parseSpecial (code : List Char) (i : Nat) : Option (List Char × List Char) :=
  if code[i + 1]? = some '!' ∧ code[i + 2]? = some ' ' then
    let rest := code.drop (i + 3)
    let name := rest.takeWhile isLowerAZ
    if name = [] then none
    else some (name, (rest.drop name.length).takeWhile isDigit09)
  else none

/-- `strconv.Atoi` on a nonempty string of decimal digits. -/
def digitsVal (ds : List Char) : Nat :=
  ds.foldl (fun acc c => 10 * acc + (c.toNat - Char.toNat '0')) 0

/-- Go `RunSpecialInstruction`: `clear` clears the tape, `print` formats
the 11 cells around the pointer, `printn n` formats `n/2` cells each side
(with a malformed, i.e. empty, digit argument `strconv.Atoi` fails and
nothing happens).  Unknown names do nothing.  The cell values that
`print`/`printn` format are appended to the output; `none` models a Go
panic inside `FormatCells`. -/
def RunSpecialInstruction (name digits : List Char) (s : EngState) : Option EngState :=
  if name = "clear".toList then some (ClearTape s)
  else if name = "print".toList then
    match formatPairs s.tape ((s.pointer : Int) - 5) ((s.pointer : Int) + 5) with
    | some pairs => some { s with output := s.output ++ pairs.map (·.2) }
    | none => none
  else if name = "printn".toList then
    if digits = [] then some s
    else
      let k : Int := (digitsVal digits / 2 : Nat)
      match formatPairs s.tape ((s.pointer : Int) - k) ((s.pointer : Int) + k) with
      | some pairs => some { s with output := s.output ++ pairs.map (·.2) }
      | none => none
  else some s

/-- The forward skip scan in `Run`'s `[` case: `j` is the current value
of `index`, `k` the size of `skipStack`.  Each round does `index += 1`
and reads `code[index]` (reading past the end is a Go panic, modelled as
`none`); on `[` the counter grows, on `]` it shrinks, and the scan stops
on the `]` that empties the stack, returning that position. -/
def skipScanF (code : List Char) : Nat → Nat → Nat → Option Nat
  | 0, _, _ => none
  | f + 1, k, j =>
    if h : j + 1 < code.length then
      if code[j + 1] = '[' then skipScanF code f (k + 1) (j + 1)
      else if code[j + 1] = ']' then
        if k ≤ 1 then some (j + 1) else skipScanF code f (k - 1) (j + 1)
      else skipScanF code f k (j + 1)
    else none

/-- Entry point of the scan: `code.length - j` bounds the number of
rounds (each round advances `j` by one and stays below `code.length`),
so the structural fuel never runs out before the Go loop would stop. -/
def skipScan (code : List Char) (k j : Nat) : Option Nat :=
  skipScanF code (code.length - j) k j

/-- The Go run-time panics the engine can raise, by the statement that
raises them: the dispatch loop's `code[index]` read, the skip scan's
`code[index]` read, `CloseLoop`'s pop of an empty stack, and a
`tape[i]` read out of range inside a debug print. -/
inductive Fault where
  | readOutOfRange
  | scanOutOfRange
  | popEmptyStack
  | printOutOfRange
deriving DecidableEq

/-- One arm of `Run`'s dispatch `switch` for the character `c` at the
current index.  `.error` models a Go panic. -/
def dispatch (code : List Char) (c : Char) (s : EngState) :
    Except Fault EngState :=
  if c = '<' then .ok (MoveLeft s)
  else if c = '>' then .ok (MoveRight s)
  else if c = '-' then .ok (Decrement s)
  else if c = '+' then .ok (Increment s)
  else if c = '.' then .ok (Output s)
  else if c = ',' then .ok (Input s)
  else if c = '[' then
    if s.tape s.pointer = 0 then
      match skipScan code 1 s.index.toNat with
      | some m => .ok { s with index := (m : Int) }
      | none => .error .scanOutOfRange
    else .ok { s with loopStack := s.index.toNat :: s.loopStack }
  else if c = ']' then
    match s.loopStack with
    | [] => .error .popEmptyStack
    | p :: rest =>
      if s.tape s.pointer = 0 then .ok { s with loopStack := rest }
      else .ok { s with loopStack := rest, index := (p : Int) - 1 }
  else if c = '!' then
    match parseSpecial code s.index.toNat with
    | some (name, digits) =>
      match RunSpecialInstruction name digits s with
      | some s1 => .ok s1
      | none => .error .printOutOfRange
    | none => .ok s
  else .ok s

/-- Result of one iteration of `Run`'s `for` loop. -/
inductive StepRes where
  | cont (s : EngState)
  | halt (s : EngState)
  | crash (f : Fault)

/-- The tail of each loop iteration in Go `Run`: `index += 1`, then leave
the loop once `index ≥ len(code)`. -/
def postStep (code : List Char) (s1 : EngState) : StepRes :=
  if s1.index + 1 ≥ (code.length : Int) then .halt { s1 with index := s1.index + 1 }
  else .cont { s1 with index := s1.index + 1 }

/-- One iteration of the `for` loop in Go `Run`: read `code[index]` (a
panic if `index` is out of range — which happens immediately on the empty
string, since the loop tests its exit condition only after the body),
dispatch, then `index += 1`, and leave the loop once `index ≥ len(code)`. -/
def step (code : List Char) (s : EngState) : StepRes :=
  if 0 ≤ s.index then
    if h : s.index.toNat < code.length then
      match dispatch code code[s.index.toNat] s with
      | .error f => .crash f
      | .ok s1 => postStep code s1
    else .crash .readOutOfRange
  else .crash .readOutOfRange

/-- Result of a whole run. -/
inductive RunResult where
  | ok (s : EngState)
  | err (e : SyntaxError) (s : EngState)
  | crash (f : Fault)
  | outOfFuel

/-- The `for` loop of Go `Run`, with explicit fuel. -/
def runLoop (code : List Char) : Nat → EngState → RunResult
  | 0, _ => .outOfFuel
  | fuel + 1, s =>
    match step code s with
    | .crash f => .crash f
    | .halt s1 => .ok s1
    | .cont s1 => runLoop code fuel s1

/-- Go `Run`: validate (returning the validator's error unchanged, with no
other effect, on failure), clear the tape if asked, set `index := 0`, run
the dispatch loop, and print a final newline (byte 10). -/
def Run (code : List Char) (clearTape : Bool) (fuel : Nat) (s : EngState) : RunResult :=
  match Validate code with
  | some e => .err e s
  | none =>
    match runLoop code fuel { (if clearTape then ClearTape s else s) with index := 0 } with
    | .ok s3 => .ok { s3 with output := s3.output ++ [10] }
    | r => r

/-- The initial state of the Go process: zero tape, pointer 0, index 0,
empty loop stack. -/
def initState (input : List Nat) : EngState :=
  { tape := fun _ => 0, pointer := 0, index := 0, loopStack := []
    input := input, output := [] }

/-- The list `[i, i + 1, ..., i + n - 1]` of consecutive integers. -/
def intRange (i : Int) (n : Nat) : List Int :=
  (List.range n).map fun t : Nat => i + (t : Int)

theorem intRange_succ (i : Int) (n : Nat) :
    intRange i (n + 1) = i :: intRange (i + 1) n := by
  simp only [intRange, List.range_succ_eq_map, List.map_cons, Nat.cast_zero, add_zero,
    List.map_map]
  congr 1
  apply List.map_congr_left
  intro t ht
  simp only [Function.comp_apply]
  push_cast
  ring

theorem windowLoop_no_wrap :
    ∀ (n : Nat) (i : Int), 0 ≤ i → i + n ≤ TapeLength →
      ∀ fuel, n < fuel →
        windowLoop fuel i (i + n) = some (intRange i n) := by
  intro n
  induction n with
  | zero =>
    intro i hi hle fuel hf
    match fuel, hf with
    | f + 1, _ => simp [windowLoop, intRange]
  | succ n ih =>
    intro i hi hle fuel hf
    match fuel, hf with
    | f + 1, hf =>
      have hne : i ≠ i + (n + 1 : Nat) := by push_cast; omega
      have hlt : ¬ i ≥ (TapeLength : Int) := by push_cast at hle ⊢; omega
      have hrec : windowLoop f (i + 1) (i + (n + 1 : Nat)) =
          some (intRange (i + 1) n) := by
        have harg : i + (n + 1 : Nat) = (i + 1) + (n : Nat) := by push_cast; omega
        rw [harg]
        exact ih (i + 1) (by omega) (by push_cast at hle ⊢; omega) f (by omega)
      rw [windowLoop]
      simp only [if_neg hne, if_neg hlt, hrec, intRange_succ]

/-- **C2.** `Run` on a source rejected by `Validate` returns the very
same error value the validator produced, executes nothing, produces no
output and leaves the whole engine state (tape, pointer, index, loop
stack, streams) unchanged: the `.err e s` result carries the input state
`s` untouched. -/
theorem c2_run_propagates_error (code : List Char) (b : Bool) (fuel : Nat)
    (s : EngState) (e : SyntaxError) (h : Validate code = some e) :
    Run code b fuel s = .err e s := by
  simp [Run, h]

theorem c2_run_propagates_error_witness :
    Validate [']'] = some .unmatchedClose ∧
      Run [']'] true 5 (initState []) = .err .unmatchedClose (initState []) :=
  ⟨by decide, c2_run_propagates_error [']'] true 5 (initState []) .unmatchedClose (by decide)⟩

/-- **C3** (evaluation at the failing input): the empty string is accepted
by `Validate`, but `Run` does *not* return success without dispatching:
its `for` loop tests the exit condition only after the body, so the very
first iteration reads `code[0]` out of range — a Go runtime panic
(`crash`), for either value of the reset flag.  This contradicts the
claim (and `Run`'s own documented contract of returning `nil` on valid
programs). -/
theorem c3_empty_source_crashes :
    Validate [] = none ∧
      Run [] false 1 (initState []) = .crash .readOutOfRange ∧
      Run [] true 1 (initState []) = .crash .readOutOfRange := by
  refine ⟨rfl, ?_, ?_⟩ <;> rfl

/-- **C7.** For a data pointer in `[0, TapeLength)`, `MoveLeft` yields
`TapeLength - 1` at 0 and `pointer - 1` otherwise, `MoveRight` yields 0
at `TapeLength - 1` and `pointer + 1` otherwise, and both results are
again in `[0, TapeLength)`. -/
theorem c7_move_wraps (s : EngState) (h : s.pointer < TapeLength) :
    ((MoveLeft s).pointer = if s.pointer = 0 then TapeLength - 1 else s.pointer - 1) ∧
    ((MoveRight s).pointer =
      if s.pointer = TapeLength - 1 then 0 else s.pointer + 1) ∧
    (MoveLeft s).pointer < TapeLength ∧ (MoveRight s).pointer < TapeLength := by
  refine ⟨?_, ?_, ?_, ?_⟩
  · by_cases h0 : s.pointer = 0 <;> simp [MoveLeft, h0]
  · by_cases h1 : s.pointer = TapeLength - 1 <;> simp [MoveRight, h1]
  · by_cases h0 : s.pointer = 0
    · simp only [MoveLeft, if_pos h0]
      show TapeLength - 1 < TapeLength
      norm_num [TapeLength]
    · simp only [MoveLeft, if_neg h0]
      show s.pointer - 1 < TapeLength
      simp only [TapeLength] at h ⊢
      omega
  · by_cases h1 : s.pointer = TapeLength - 1
    · simp only [MoveRight, if_pos h1]
      show (0 : Nat) < TapeLength
      norm_num [TapeLength]
    · simp only [MoveRight, if_neg h1]
      show s.pointer + 1 < TapeLength
      simp only [TapeLength] at h h1 ⊢
      omega

theorem c7_move_wraps_witness :
    (MoveLeft (initState [])).pointer = TapeLength - 1 ∧
      (MoveRight (initState [])).pointer = 1 :=
  ⟨by have := (c7_move_wraps (initState []) (by norm_num [initState, TapeLength])).1
      simpa [initState] using this,
   by have := (c7_move_wraps (initState []) (by norm_num [initState, TapeLength])).2.1
      simpa [initState, TapeLength] using this⟩

/-- **C8.** For a byte cell value `v ≤ 255`, `Increment` stores
`(v + 1) % 256` and `Decrement` stores `(v - 1) mod 256` (computed as
`(v + 255) % 256` on naturals); incrementing 255 yields 0 and
decrementing 0 yields 255, and neither operation is an error. -/
theorem c8_cell_arithmetic (s : EngState) (h : s.tape s.pointer ≤ 255) :
    ((Increment s).tape s.pointer = (s.tape s.pointer + 1) % 256) ∧
    (((Decrement s).tape s.pointer : Int) = ((s.tape s.pointer : Int) - 1) % 256) ∧
    (s.tape s.pointer = 255 → (Increment s).tape s.pointer = 0) ∧
    (s.tape s.pointer = 0 → (Decrement s).tape s.pointer = 255) := by
  refine ⟨by simp [Increment], ?_, ?_, ?_⟩
  · simp only [Decrement, if_pos rfl]
    push_cast
    omega
  · intro hv; simp [Increment, hv]
  · intro hv; simp [Decrement, hv]

theorem c8_cell_arithmetic_witness :
    (Increment (initState [])).tape 0 = 1 ∧
      (Decrement (initState [])).tape 0 = 255 :=
  ⟨by have := (c8_cell_arithmetic (initState []) (by norm_num [initState])).1
      simpa [initState] using this,
   (c8_cell_arithmetic (initState []) (by norm_num [initState])).2.2.2 rfl⟩

/-- **C9.** The clear operation sets every tape cell to 0 and the data
pointer to 0 and changes nothing else — instruction index, loop stack and
both streams are untouched; the debug instruction `!! clear` performs
exactly `ClearTape`, and `Run` with the reset flag behaves exactly like
`Run` without it started from the cleared state. -/
theorem c9_clear_resets (s : EngState) :
    ((∀ i, (ClearTape s).tape i = 0) ∧
      (ClearTape s).pointer = 0 ∧
      (ClearTape s).index = s.index ∧
      (ClearTape s).loopStack = s.loopStack ∧
      (ClearTape s).input = s.input ∧
      (ClearTape s).output = s.output) ∧
    (∀ digits, RunSpecialInstruction "clear".toList digits s = some (ClearTape s)) ∧
    (∀ code fuel, Validate code = none →
      Run code true fuel s = Run code false fuel (ClearTape s)) := by
  refine ⟨⟨fun i => rfl, rfl, rfl, rfl, rfl, rfl⟩, fun digits => ?_, fun code fuel hv => ?_⟩
  · simp [RunSpecialInstruction]
  · simp [Run, hv]

theorem c9_clear_resets_witness :
    RunSpecialInstruction "clear".toList [] (initState [1]) =
        some (ClearTape (initState [1])) ∧
      Run ['+'] true 2 (initState []) = Run ['+'] false 2 (ClearTape (initState [])) :=
  ⟨(c9_clear_resets (initState [1])).2.1 [],
   (c9_clear_resets (initState [])).2.2 ['+'] 2 (by decide)⟩

/-- **C10** (counterexample): the debug print window does *not* wrap a
negative start by the tape's circular rule.  With the data pointer at 0
the requested window starts at `0 - 5 = -5`; the circular rule
(`TapeLength + start`) gives 29995, but `FormatCells` computes
`TapeLength + start - 1 = 29994`. -/
theorem c10_wrapStart_not_modular :
    wrapStart (0 - 5) = 29994 ∧
      (TapeLength : Int) + (0 - 5) = 29995 ∧
      wrapStart (0 - 5) ≠ (TapeLength : Int) + (0 - 5) := by
  refine ⟨?_, ?_, ?_⟩ <;> norm_num [wrapStart, TapeLength]

/-- **C10** (amended).  The print window's index adjustments are: a
non-negative start and an end below `TapeLength` are kept; a start that
is negative begins the window at `TapeLength + start - 1` — one cell
*before* the clean modular-wrap position; an end at or past `TapeLength`
is wrapped to `end - TapeLength`; and when the running index reaches
`TapeLength` the loop continues from index 0.  A window that does not
wrap (`0 ≤ pointer - 5` and `pointer + 5 < TapeLength`) covers exactly
the 11 cells centered on the pointer. -/
theorem c10_window_amended (st e : Int) :
    (st < 0 → wrapStart st = TapeLength + st - 1) ∧
    (0 ≤ st → wrapStart st = st) ∧
    ((TapeLength : Int) ≤ e → wrapEnd e = e - TapeLength) ∧
    (e < TapeLength → wrapEnd e = e) ∧
    (∀ fuel stop, stop ≠ (TapeLength : Int) →
      windowLoop (fuel + 1) TapeLength stop =
        (windowLoop fuel 1 stop).map fun rest => (0 : Int) :: rest) ∧
    (∀ p : Nat, 5 ≤ p → p + 5 < TapeLength →
      formatIndices ((p : Int) - 5) ((p : Int) + 5) =
        some (intRange ((p : Int) - 5) 11)) := by
  refine ⟨fun h => by simp [wrapStart, h],
          fun h => by simp [wrapStart]; omega,
          fun h => by simp [wrapEnd, h],
          fun h => by simp [wrapEnd]; omega,
          fun fuel stop hne => ?_, fun p h5 hlt => ?_⟩
  · have hne2 : ¬((TapeLength : Int) = stop) := fun hh => hne hh.symm
    rw [windowLoop]
    rw [if_neg hne2]
    simp only [ge_iff_le, le_refl, if_true, zero_add]
    cases hw : windowLoop fuel 1 stop <;> simp [hw]
  · have h1 : wrapStart ((p : Int) - 5) = (p : Int) - 5 := by
      simp [wrapStart]; omega
    have h2 : wrapEnd ((p : Int) + 5) = (p : Int) + 5 := by
      simp [wrapEnd]; push_cast at hlt ⊢; omega
    have h3 : (p : Int) + 5 + 1 = ((p : Int) - 5) + (11 : Nat) := by push_cast; omega
    rw [formatIndices, h1, h2, h3]
    exact windowLoop_no_wrap 11 ((p : Int) - 5) (by omega)
      (by push_cast at hlt ⊢; omega) windowFuel (by norm_num [windowFuel, TapeLength])

theorem c10_window_amended_witness :
    wrapStart (-5) = (TapeLength : Int) + (-5) - 1 ∧
      wrapEnd (TapeLength + 3) = 3 ∧
      formatIndices ((7 : Int) - 5) ((7 : Int) + 5) =
        some (intRange ((7 : Int) - 5) 11) :=
  ⟨(c10_window_amended (-5) 0).1 (by norm_num),
   by have := (c10_window_amended (-5) ((TapeLength : Int) + 3)).2.2.1
        (by norm_num [TapeLength])
      simpa using this,
   (c10_window_amended 0 0).2.2.2.2.2 7 (by norm_num) (by norm_num [TapeLength])⟩

/-- The validator stack after scanning the length-`n` prefix of the code:
the positions of the currently-unmatched `[`s, most recent first.  This
is the stack `validateGo` carries, and — the run-time invariant proved
below — also the loop-origin stack the engine holds whenever its
instruction pointer is at position `n`. -/
def vstack (code : List Char) : Nat → List Nat
  | 0 => []
  | n + 1 =>
    if code[n]? = some '[' then n :: vstack code n
    else if code[n]? = some ']' then (vstack code n).tail
    else vstack code n

theorem getElem?_lt_length {α : Type} {l : List α} {n : Nat} {a : α}
    (h : l[n]? = some a) : n < l.length :=
  (List.getElem?_eq_some.mp h).1

theorem dI_succ (code : List Char) (n : Nat) (c : Char)
    (h : code[n]? = some c) :
    dI code (n + 1) = dI code n + charDelta c := by
  simp only [dI, List.take_succ, h, Option.toList_some, List.count_append]
  by_cases h1 : c = '['
  · simp [charDelta, List.count_singleton, h1]
    ring
  · by_cases h3 : c = ']'
    · simp [charDelta, List.count_singleton, h1, h3]
      ring
    · simp [charDelta, List.count_singleton, h1, h3, Ne.symm h1, Ne.symm h3]

theorem dI_stable (code : List Char) (n : Nat) (h : code[n]? = none) :
    dI code (n + 1) = dI code n := by
  have hlen : code.length ≤ n := by
    by_contra hc
    push_neg at hc
    rw [List.getElem?_eq_getElem hc] at h
    cases h
  simp only [dI, List.take_of_length_le hlen, List.take_of_length_le (by omega : code.length ≤ n + 1)]

theorem dI_of_length_le (code : List Char) (n : Nat) (h : code.length ≤ n) :
    dI code n = dI code code.length := by
  simp only [dI, List.take_of_length_le h, List.take_length]

theorem Balanced.nonneg {code : List Char} (h : Balanced code) (n : Nat) :
    0 ≤ dI code n := by
  by_cases hn : n ≤ code.length
  · exact h.1 n hn
  · rw [dI_of_length_le code n (by omega)]
    exact h.1 code.length (le_refl _)

theorem vstack_succ_open (code : List Char) (n : Nat)
    (h : code[n]? = some '[') :
    vstack code (n + 1) = n :: vstack code n := by
  simp only [vstack]
  rw [if_pos h]

theorem vstack_succ_close (code : List Char) (n : Nat)
    (h : code[n]? = some ']') :
    vstack code (n + 1) = (vstack code n).tail := by
  simp only [vstack]
  rw [if_neg (by simp [h]), if_pos h]

theorem vstack_succ_other (code : List Char) (n : Nat)
    (h1 : code[n]? ≠ some '[') (h3 : code[n]? ≠ some ']') :
    vstack code (n + 1) = vstack code n := by
  simp only [vstack]
  rw [if_neg h1, if_neg h3]

theorem vstack_length {code : List Char} (hbal : Balanced code) :
    ∀ n, ((vstack code n).length : Int) = dI code n := by
  intro n
  induction n with
  | zero => simp [vstack, dI_zero]
  | succ n ih =>
    match hget : code[n]? with
    | none =>
      rw [dI_stable code n hget,
        vstack_succ_other code n (by simp [hget]) (by simp [hget])]
      exact ih
    | some c =>
      rw [dI_succ code n c hget]
      by_cases h1 : c = '['
      · subst h1
        rw [vstack_succ_open code n hget, List.length_cons]
        have hδ : charDelta '[' = 1 := by simp [charDelta]
        rw [hδ]
        push_cast
        omega
      · by_cases h3 : c = ']'
        · subst h3
          have hn1 : n + 1 ≤ code.length := getElem?_lt_length hget
          have hpos : 0 ≤ dI code (n + 1) := hbal.1 (n + 1) hn1
          have hδ : charDelta ']' = -1 := by simp [charDelta]
          rw [dI_succ code n _ hget, hδ] at hpos
          rw [vstack_succ_close code n hget, List.length_tail, hδ]
          push_cast
          omega
        · have hδ : charDelta c = 0 := by simp [charDelta, h1, h3]
          rw [vstack_succ_other code n (by simp [hget, h1]) (by simp [hget, h3]),
            hδ, add_zero]
          exact ih

theorem vstack_suffix (code : List Char) :
    ∀ (n : Nat) (p : Nat) (r : List Nat), (p :: r) <:+ vstack code n →
      code[p]? = some '[' ∧ vstack code p = r ∧ p < n := by
  intro n
  induction n with
  | zero =>
    intro p r hsuf
    have := hsuf.length_le
    simp [vstack] at this
  | succ n ih =>
    intro p r hsuf
    match hget : code[n]? with
    | none =>
      rw [vstack_succ_other code n (by simp [hget]) (by simp [hget])] at hsuf
      have := ih p r hsuf
      exact ⟨this.1, this.2.1, by omega⟩
    | some c =>
      by_cases h1 : c = '['
      · subst h1
        rw [vstack_succ_open code n hget] at hsuf
        rcases List.suffix_cons_iff.mp hsuf with heq | hsuf2
        · rw [List.cons.injEq] at heq
          obtain ⟨hp, hr⟩ := heq
          subst hp; subst hr
          exact ⟨hget, rfl, by omega⟩
        · have := ih p r hsuf2
          exact ⟨this.1, this.2.1, by omega⟩
      · by_cases h3 : c = ']'
        · subst h3
          rw [vstack_succ_close code n hget] at hsuf
          have hsuf2 : (p :: r) <:+ vstack code n :=
            hsuf.trans (List.tail_suffix _)
          have := ih p r hsuf2
          exact ⟨this.1, this.2.1, by omega⟩
        · rw [vstack_succ_other code n (by simp [hget, h1]) (by simp [hget, h3])] at hsuf
          have := ih p r hsuf
          exact ⟨this.1, this.2.1, by omega⟩

theorem vstack_drop_eq (code : List Char) (k : Nat) :
    ∀ (b a : Nat), a ≤ b →
      (∀ x, a ≤ x → x ≤ b → k ≤ (vstack code x).length) →
      (vstack code b).drop ((vstack code b).length - k) =
        (vstack code a).drop ((vstack code a).length - k) := by
  intro b
  induction b with
  | zero =>
    intro a ha _
    have : a = 0 := by omega
    subst this
    rfl
  | succ b ih =>
    intro a ha hk
    by_cases hab : a = b + 1
    · subst hab; rfl
    · have hab2 : a ≤ b := by omega
      have hstep :
          (vstack code (b + 1)).drop ((vstack code (b + 1)).length - k) =
            (vstack code b).drop ((vstack code b).length - k) := by
        have hkb : k ≤ (vstack code b).length := hk b hab2 (by omega)
        match hget : code[b]? with
        | none =>
          rw [vstack_succ_other code b (by simp [hget]) (by simp [hget])]
        | some c =>
          by_cases h1 : c = '['
          · subst h1
            rw [vstack_succ_open code b hget]
            have hsub : (b :: vstack code b).length - k =
                ((vstack code b).length - k) + 1 := by
              simp only [List.length_cons]
              omega
            rw [hsub, List.drop_succ_cons]
          · by_cases h3 : c = ']'
            · subst h3
              have hkb1 : k ≤ (vstack code (b + 1)).length :=
                hk (b + 1) (by omega) (le_refl _)
              rw [vstack_succ_close code b hget] at hkb1 ⊢
              match hvs : vstack code b with
              | [] => simp [hvs]
              | q :: l =>
                rw [hvs] at hkb1
                simp only [List.tail_cons] at hkb1 ⊢
                have hsub : (q :: l).length - k = (l.length - k) + 1 := by
                  simp only [List.length_cons]
                  omega
                rw [hsub, List.drop_succ_cons]
            · rw [vstack_succ_other code b (by simp [hget, h1]) (by simp [hget, h3])]
      rw [hstep]
      exact ih a hab2 (fun x hx1 hx2 => hk x hx1 (by omega))

theorem skipScan_spec (code : List Char) :
    ∀ (f j k : Nat), code.length ≤ j + f → 1 ≤ k → j + 1 ≤ code.length →
      dI code code.length ≤ dI code (j + 1) - k →
      ∃ m, skipScanF code f k j = some m ∧ j + 1 ≤ m ∧ m < code.length ∧
        code[m]? = some ']' ∧ dI code (m + 1) = dI code (j + 1) - k ∧
        ∀ x, j + 1 ≤ x → x ≤ m → dI code (j + 1) - (k : Int) < dI code x := by
  intro f
  induction f with
  | zero =>
    intro j k hf hk hj hd
    omega
  | succ f ih =>
    intro j k hf hk hj hd
    have hj1 : j + 1 < code.length := by
      rcases Nat.lt_or_ge (j + 1) code.length with h | h
      · exact h
      · exfalso
        have hje : j + 1 = code.length := by omega
        rw [hje] at hd
        omega
    have hget : code[j + 1]? = some code[j + 1] := List.getElem?_eq_getElem hj1
    have hδ := dI_succ code (j + 1) (code[j + 1]) hget
    rw [skipScanF, dif_pos hj1]
    by_cases h1 : code[j + 1] = '['
    · rw [if_pos h1]
      have hδ1 : dI code (j + 1 + 1) = dI code (j + 1) + 1 := by
        rw [hδ, h1]; simp [charDelta]
      obtain ⟨m, hm, hm1, hm2, hm3, hm4, hm5⟩ :=
        ih (j + 1) (k + 1) (by omega) (by omega) (by omega) (by omega)
      refine ⟨m, hm, by omega, hm2, hm3, by omega, ?_⟩
      intro x hx1 hx2
      rcases Nat.eq_or_lt_of_le hx1 with hx | hx
      · rw [← hx]
        omega
      · have := hm5 x (by omega) hx2
        omega
    · by_cases h3 : code[j + 1] = ']'
      · rw [if_neg h1, if_pos h3]
        have hδ1 : dI code (j + 1 + 1) = dI code (j + 1) - 1 := by
          rw [hδ, h3]
          simp [charDelta, sub_eq_add_neg]
        rw [h3] at hget
        by_cases hk1 : k ≤ 1
        · rw [if_pos hk1]
          have hk' : k = 1 := by omega
          subst hk'
          refine ⟨j + 1, rfl, le_refl _, hj1, hget, by omega, ?_⟩
          intro x hx1 hx2
          have hx : x = j + 1 := by omega
          rw [hx]
          omega
        · rw [if_neg hk1]
          obtain ⟨m, hm, hm1, hm2, hm3, hm4, hm5⟩ :=
            ih (j + 1) (k - 1) (by omega) (by omega) (by omega) (by omega)
          refine ⟨m, hm, by omega, hm2, hm3, by omega, ?_⟩
          intro x hx1 hx2
          rcases Nat.eq_or_lt_of_le hx1 with hx | hx
          · rw [← hx]
            omega
          · have := hm5 x (by omega) hx2
            omega
      · rw [if_neg h1, if_neg h3]
        have hδ1 : dI code (j + 1 + 1) = dI code (j + 1) := by
          rw [hδ]
          simp [charDelta, h1, h3]
        obtain ⟨m, hm, hm1, hm2, hm3, hm4, hm5⟩ :=
          ih (j + 1) k (by omega) (by omega) (by omega) (by omega)
        refine ⟨m, hm, by omega, hm2, hm3, by omega, ?_⟩
        intro x hx1 hx2
        rcases Nat.eq_or_lt_of_le hx1 with hx | hx
        · rw [← hx]
          omega
        · have := hm5 x (by omega) hx2
          omega

theorem skipScan_match (code : List Char) (hbal : Balanced code) (i : Nat)
    (hi : i < code.length) (hc : code[i]? = some '[') :
    ∃ m, skipScan code 1 i = some m ∧ i < m ∧ m < code.length ∧
      code[m]? = some ']' ∧ dI code (m + 1) = dI code i ∧
      (∀ x, i < x → x ≤ m → dI code i < dI code x) ∧
      vstack code (m + 1) = vstack code i := by
  have hδ : dI code (i + 1) = dI code i + 1 := by
    rw [dI_succ code i '[' hc]; simp [charDelta]
  have h0 : 0 ≤ dI code i := hbal.nonneg i
  obtain ⟨m, hm0, hm1, hm2, hm3, hm4, hm5⟩ :=
    skipScan_spec code (code.length - i) i 1 (by omega) (le_refl _) (by omega)
      (by rw [hbal.2]; omega)
  have hm : skipScan code 1 i = some m := hm0
  have hlen := vstack_length hbal
  have hkI : (((dI code i).toNat : Nat) : Int) = dI code i := Int.toNat_of_nonneg h0
  have hcond : ∀ x, i ≤ x → x ≤ m + 1 → (dI code i).toNat ≤ (vstack code x).length := by
    intro x hx1 hx2
    have hlx := hlen x
    rcases Nat.eq_or_lt_of_le hx1 with hq | hq
    · rw [← hq] at hlx ⊢
      omega
    · by_cases hxm : x ≤ m
      · have := hm5 x (by omega) hxm
        omega
      · have hxe : x = m + 1 := by omega
        rw [hxe] at hlx ⊢
        omega
  have hdrop := vstack_drop_eq code (dI code i).toNat (m + 1) i (by omega) hcond
  have hbl : (vstack code (m + 1)).length = (dI code i).toNat := by
    have := hlen (m + 1)
    omega
  have hal : (vstack code i).length = (dI code i).toNat := by
    have := hlen i
    omega
  rw [hbl, hal, Nat.sub_self, List.drop_zero, List.drop_zero] at hdrop
  refine ⟨m, hm, by omega, hm2, hm3, by omega, ?_, hdrop⟩
  intro x hx1 hx2
  have := hm5 x (by omega) hx2
  omega

theorem vstack_final {code : List Char} (hbal : Balanced code) :
    vstack code code.length = [] := by
  have hl := vstack_length hbal code.length
  rw [hbal.2] at hl
  have hlen : (vstack code code.length).length = 0 := by omega
  exact List.length_eq_zero.mp hlen

theorem dispatch_lt (code : List Char) (s : EngState) :
    dispatch code '<' s = .ok (MoveLeft s) := rfl

theorem dispatch_gt (code : List Char) (s : EngState) :
    dispatch code '>' s = .ok (MoveRight s) := rfl

theorem dispatch_minus (code : List Char) (s : EngState) :
    dispatch code '-' s = .ok (Decrement s) := rfl

theorem dispatch_plus (code : List Char) (s : EngState) :
    dispatch code '+' s = .ok (Increment s) := rfl

theorem dispatch_dot (code : List Char) (s : EngState) :
    dispatch code '.' s = .ok (Output s) := rfl

theorem dispatch_comma (code : List Char) (s : EngState) :
    dispatch code ',' s = .ok (Input s) := rfl

theorem dispatch_obrk (code : List Char) (s : EngState) :
    dispatch code '[' s =
      (if s.tape s.pointer = 0 then
        match skipScan code 1 s.index.toNat with
        | some m => .ok { s with index := (m : Int) }
        | none => .error .scanOutOfRange
      else .ok { s with loopStack := s.index.toNat :: s.loopStack }) := rfl

theorem dispatch_cbrk (code : List Char) (s : EngState) :
    dispatch code ']' s =
      (match s.loopStack with
      | [] => .error .popEmptyStack
      | p :: rest =>
        if s.tape s.pointer = 0 then .ok { s with loopStack := rest }
        else .ok { s with loopStack := rest, index := (p : Int) - 1 }) := rfl

theorem dispatch_bang (code : List Char) (s : EngState) :
    dispatch code '!' s =
      (match parseSpecial code s.index.toNat with
      | some (name, digits) =>
        match RunSpecialInstruction name digits s with
        | some s1 => .ok s1
        | none => .error .printOutOfRange
      | none => .ok s) := rfl

theorem dispatch_other (code : List Char) (c : Char) (s : EngState)
    (h1 : c ≠ '<') (h2 : c ≠ '>') (h3 : c ≠ '-') (h4 : c ≠ '+')
    (h5 : c ≠ '.') (h6 : c ≠ ',') (h7 : c ≠ '[') (h8 : c ≠ ']')
    (h9 : c ≠ '!') :
    dispatch code c s = .ok s := by
  rw [dispatch, if_neg h1, if_neg h2, if_neg h3, if_neg h4, if_neg h5,
    if_neg h6, if_neg h7, if_neg h8, if_neg h9]

theorem MoveLeft_frame (s : EngState) :
    (MoveLeft s).index = s.index ∧ (MoveLeft s).loopStack = s.loopStack := by
  unfold MoveLeft
  split <;> exact ⟨rfl, rfl⟩

theorem MoveRight_frame (s : EngState) :
    (MoveRight s).index = s.index ∧ (MoveRight s).loopStack = s.loopStack := by
  unfold MoveRight
  split <;> exact ⟨rfl, rfl⟩

theorem Input_frame (s : EngState) :
    (Input s).index = s.index ∧ (Input s).loopStack = s.loopStack := by
  unfold Input
  split <;> exact ⟨rfl, rfl⟩

theorem runSpecial_preserves (name digits : List Char) (s s1 : EngState)
    (h : RunSpecialInstruction name digits s = some s1) :
    s1.index = s.index ∧ s1.loopStack = s.loopStack := by
  unfold RunSpecialInstruction at h
  repeat' split at h
  all_goals try (dsimp only at h; repeat' split at h)
  all_goals
    first
      | (injection h with h; subst h; exact ⟨rfl, rfl⟩)
      | (injection h)

/-- The run-time state invariant: the instruction index is a valid
source position and the loop-origin stack is exactly the validator
stack of the prefix before the instruction pointer — so its depth is the
live nesting depth of the loops that have been entered and not yet
exited. -/
def StackInv (code : List Char) (s : EngState) : Prop :=
  0 ≤ s.index ∧ s.index.toNat < code.length ∧
    s.loopStack = vstack code s.index.toNat

theorem inv_of_same (code : List Char) (s s1 : EngState)
    (h0 : 0 ≤ s.index) (hlt : s.index.toNat < code.length)
    (hstk : s.loopStack = vstack code s.index.toNat)
    (hi : s1.index = s.index) (hs : s1.loopStack = s.loopStack)
    (hother : vstack code (s.index.toNat + 1) = vstack code s.index.toNat) :
    0 ≤ s1.index + 1 ∧ (s1.index + 1).toNat ≤ code.length ∧
      s1.loopStack = vstack code (s1.index + 1).toNat := by
  have ht : (s.index + 1).toNat = s.index.toNat + 1 := by omega
  refine ⟨by omega, by omega, ?_⟩
  rw [hi, hs, hstk, ht, hother]

theorem dispatch_inv (code : List Char) (hbal : Balanced code) (s : EngState)
    (h0 : 0 ≤ s.index) (hlt : s.index.toNat < code.length)
    (hstk : s.loopStack = vstack code s.index.toNat) :
    dispatch code code[s.index.toNat] s ≠ .error .popEmptyStack ∧
    ∀ s1, dispatch code code[s.index.toNat] s = .ok s1 →
      0 ≤ s1.index + 1 ∧ (s1.index + 1).toNat ≤ code.length ∧
        s1.loopStack = vstack code (s1.index + 1).toNat := by
  have hget : code[s.index.toNat]? = some code[s.index.toNat] :=
    List.getElem?_eq_getElem hlt
  by_cases hc1 : code[s.index.toNat] = '<'
  · rw [hc1, dispatch_lt]
    refine ⟨fun h => Except.noConfusion h, fun s1 h1 => ?_⟩
    injection h1 with h1
    subst h1
    exact inv_of_same code s _ h0 hlt hstk (MoveLeft_frame s).1 (MoveLeft_frame s).2
      (vstack_succ_other code _ (by rw [hget, hc1]; decide) (by rw [hget, hc1]; decide))
  by_cases hc2 : code[s.index.toNat] = '>'
  · rw [hc2, dispatch_gt]
    refine ⟨fun h => Except.noConfusion h, fun s1 h1 => ?_⟩
    injection h1 with h1
    subst h1
    exact inv_of_same code s _ h0 hlt hstk (MoveRight_frame s).1 (MoveRight_frame s).2
      (vstack_succ_other code _ (by rw [hget, hc2]; decide) (by rw [hget, hc2]; decide))
  by_cases hc3 : code[s.index.toNat] = '-'
  · rw [hc3, dispatch_minus]
    refine ⟨fun h => Except.noConfusion h, fun s1 h1 => ?_⟩
    injection h1 with h1
    subst h1
    exact inv_of_same code s _ h0 hlt hstk rfl rfl
      (vstack_succ_other code _ (by rw [hget, hc3]; decide) (by rw [hget, hc3]; decide))
  by_cases hc4 : code[s.index.toNat] = '+'
  · rw [hc4, dispatch_plus]
    refine ⟨fun h => Except.noConfusion h, fun s1 h1 => ?_⟩
    injection h1 with h1
    subst h1
    exact inv_of_same code s _ h0 hlt hstk rfl rfl
      (vstack_succ_other code _ (by rw [hget, hc4]; decide) (by rw [hget, hc4]; decide))
  by_cases hc5 : code[s.index.toNat] = '.'
  · rw [hc5, dispatch_dot]
    refine ⟨fun h => Except.noConfusion h, fun s1 h1 => ?_⟩
    injection h1 with h1
    subst h1
    exact inv_of_same code s _ h0 hlt hstk rfl rfl
      (vstack_succ_other code _ (by rw [hget, hc5]; decide) (by rw [hget, hc5]; decide))
  by_cases hc6 : code[s.index.toNat] = ','
  · rw [hc6, dispatch_comma]
    refine ⟨fun h => Except.noConfusion h, fun s1 h1 => ?_⟩
    injection h1 with h1
    subst h1
    exact inv_of_same code s _ h0 hlt hstk (Input_frame s).1 (Input_frame s).2
      (vstack_succ_other code _ (by rw [hget, hc6]; decide) (by rw [hget, hc6]; decide))
  by_cases hc7 : code[s.index.toNat] = '['
  · rw [hc7, dispatch_obrk]
    by_cases hcell : s.tape s.pointer = 0
    · rw [if_pos hcell]
      obtain ⟨m, hm, hmgt, hmlt, hmc, hmd, hmin, hmv⟩ :=
        skipScan_match code hbal s.index.toNat hlt (by rw [hget, hc7])
      rw [hm]
      refine ⟨fun h => Except.noConfusion h, fun s1 h1 => ?_⟩
      injection h1 with h1
      subst h1
      dsimp only
      refine ⟨by omega, by omega, ?_⟩
      rw [show ((m : Int) + 1).toNat = m + 1 from by omega, hmv, hstk]
    · rw [if_neg hcell]
      refine ⟨fun h => Except.noConfusion h, fun s1 h1 => ?_⟩
      injection h1 with h1
      subst h1
      dsimp only
      refine ⟨by omega, by omega, ?_⟩
      rw [show (s.index + 1).toNat = s.index.toNat + 1 from by omega,
        vstack_succ_open code _ (by rw [hget, hc7]), hstk]
  by_cases hc8 : code[s.index.toNat] = ']'
  · rw [hc8, dispatch_cbrk]
    have hd1 : dI code (s.index.toNat + 1) = dI code s.index.toNat - 1 := by
      rw [dI_succ code _ _ hget, hc8]
      simp [charDelta, sub_eq_add_neg]
    have hnn : 0 ≤ dI code (s.index.toNat + 1) := hbal.1 _ (by omega)
    have hvl := vstack_length hbal s.index.toNat
    have hlen1 : 1 ≤ (vstack code s.index.toNat).length := by omega
    match hvs : vstack code s.index.toNat with
    | [] =>
      rw [hvs] at hlen1
      simp at hlen1
    | p :: rest =>
      obtain ⟨hpc, hvp, hplt⟩ := vstack_suffix code s.index.toNat p rest
        (by rw [hvs])
      rw [hstk, hvs]
      dsimp only
      by_cases hcell : s.tape s.pointer = 0
      · rw [if_pos hcell]
        refine ⟨fun h => Except.noConfusion h, fun s1 h1 => ?_⟩
        injection h1 with h1
        subst h1
        dsimp only
        refine ⟨by omega, by omega, ?_⟩
        rw [show (s.index + 1).toNat = s.index.toNat + 1 from by omega,
          vstack_succ_close code _ (by rw [hget, hc8]), hvs]
        rfl
      · rw [if_neg hcell]
        refine ⟨fun h => Except.noConfusion h, fun s1 h1 => ?_⟩
        injection h1 with h1
        subst h1
        dsimp only
        refine ⟨by omega, by omega, ?_⟩
        rw [show ((p : Int) - 1 + 1).toNat = p from by omega, hvp]
  by_cases hc9 : code[s.index.toNat] = '!'
  · rw [hc9, dispatch_bang]
    match hps : parseSpecial code s.index.toNat with
    | none =>
      dsimp only
      refine ⟨fun h => Except.noConfusion h, fun s1 h1 => ?_⟩
      injection h1 with h1
      subst h1
      exact inv_of_same code s s h0 hlt hstk rfl rfl
        (vstack_succ_other code _ (by rw [hget, hc9]; decide)
          (by rw [hget, hc9]; decide))
    | some nd =>
      obtain ⟨name, digits⟩ := nd
      dsimp only
      match hrs : RunSpecialInstruction name digits s with
      | none =>
        dsimp only
        refine ⟨fun h => ?_, fun s1 h1 => Except.noConfusion h1⟩
        injection h with h
        exact Fault.noConfusion h
      | some s2 =>
        dsimp only
        refine ⟨fun h => Except.noConfusion h, fun s1 h1 => ?_⟩
        injection h1 with h1
        subst h1
        obtain ⟨hpi, hpl⟩ := runSpecial_preserves name digits s s2 hrs
        exact inv_of_same code s s2 h0 hlt hstk hpi hpl
          (vstack_succ_other code _ (by rw [hget, hc9]; decide)
            (by rw [hget, hc9]; decide))
  · rw [dispatch_other code _ s hc1 hc2 hc3 hc4 hc5 hc6 hc7 hc8 hc9]
    refine ⟨fun h => Except.noConfusion h, fun s1 h1 => ?_⟩
    injection h1 with h1
    subst h1
    exact inv_of_same code s s h0 hlt hstk rfl rfl
      (vstack_succ_other code _ (by rw [hget]; simpa using hc7)
        (by rw [hget]; simpa using hc8))

theorem postStep_spec (code : List Char) (hbal : Balanced code) (s1 : EngState)
    (hnn : 0 ≤ s1.index + 1) (hle : (s1.index + 1).toNat ≤ code.length)
    (hstk : s1.loopStack = vstack code (s1.index + 1).toNat) :
    (∀ f, postStep code s1 ≠ .crash f) ∧
    (∀ s2, postStep code s1 = .cont s2 → StackInv code s2) ∧
    (∀ s2, postStep code s1 = .halt s2 → s2.loopStack = []) := by
  unfold postStep
  by_cases hge : s1.index + 1 ≥ (code.length : Int)
  · rw [if_pos hge]
    refine ⟨fun f h => StepRes.noConfusion h, fun s2 h => StepRes.noConfusion h, ?_⟩
    intro s2 h
    injection h with h
    subst h
    dsimp only
    have hEq : (s1.index + 1).toNat = code.length := by omega
    rw [hstk, hEq, vstack_final hbal]
  · rw [if_neg hge]
    refine ⟨fun f h => StepRes.noConfusion h, ?_, fun s2 h => StepRes.noConfusion h⟩
    intro s2 h
    injection h with h
    subst h
    refine ⟨?_, ?_, ?_⟩ <;> dsimp only
    · omega
    · omega
    · exact hstk

theorem step_inv (code : List Char) (hbal : Balanced code) (s : EngState)
    (hinv : StackInv code s) :
    (step code s ≠ .crash .popEmptyStack) ∧
    (∀ s1, step code s = .cont s1 → StackInv code s1) ∧
    (∀ s1, step code s = .halt s1 → s1.loopStack = []) := by
  obtain ⟨h0, hlt, hstk⟩ := hinv
  obtain ⟨hd1, hd2⟩ := dispatch_inv code hbal s h0 hlt hstk
  rw [step, if_pos h0, dif_pos hlt]
  match hdp : dispatch code code[s.index.toNat] s with
  | .error f =>
    dsimp only
    refine ⟨?_, fun s1 h => StepRes.noConfusion h, fun s1 h => StepRes.noConfusion h⟩
    intro h
    injection h with h
    subst h
    exact hd1 hdp
  | .ok s1 =>
    dsimp only
    obtain ⟨ha, hb, hc⟩ := hd2 s1 hdp
    obtain ⟨hp1, hp2, hp3⟩ := postStep_spec code hbal s1 ha hb hc
    exact ⟨hp1 _, hp2, hp3⟩

theorem runLoop_inv (code : List Char) (hbal : Balanced code) :
    ∀ (fuel : Nat) (s : EngState), StackInv code s →
      runLoop code fuel s ≠ .crash .popEmptyStack ∧
      ∀ s1, runLoop code fuel s = .ok s1 → s1.loopStack = [] := by
  intro fuel
  induction fuel with
  | zero =>
    intro s hinv
    exact ⟨fun h => RunResult.noConfusion h, fun s1 h => RunResult.noConfusion h⟩
  | succ fuel ih =>
    intro s hinv
    obtain ⟨h1, h2, h3⟩ := step_inv code hbal s hinv
    rw [runLoop]
    match hst : step code s with
    | .crash f =>
      dsimp only
      refine ⟨?_, fun s1 h => RunResult.noConfusion h⟩
      intro h
      injection h with h
      subst h
      exact h1 hst
    | .halt s1 =>
      dsimp only
      refine ⟨fun h => RunResult.noConfusion h, ?_⟩
      intro s2 h
      injection h with h
      subst h
      exact h3 _ hst
    | .cont s1 =>
      dsimp only
      exact ih s1 (h2 s1 hst)

theorem runWrap_inv (code : List Char) (hbal : Balanced code) (fuel : Nat)
    (s0 : EngState) (hi : s0.index = 0) (hl : s0.loopStack = []) :
    runLoop code fuel s0 ≠ .crash .popEmptyStack ∧
    ∀ s1, runLoop code fuel s0 = .ok s1 → s1.loopStack = [] := by
  by_cases hcode : code = []
  · subst hcode
    match fuel with
    | 0 =>
      have hrl : runLoop ([] : List Char) 0 s0 = .outOfFuel := rfl
      rw [hrl]
      exact ⟨fun h => RunResult.noConfusion h, fun s1 h => RunResult.noConfusion h⟩
    | f + 1 =>
      have hstep : step ([] : List Char) s0 = .crash .readOutOfRange := by
        rw [step, if_pos (show (0 : Int) ≤ s0.index by omega),
          dif_neg (show ¬s0.index.toNat < ([] : List Char).length by simp)]
      rw [runLoop, hstep]
      dsimp only
      refine ⟨fun h => ?_, fun s1 h => RunResult.noConfusion h⟩
      injection h with h
      exact Fault.noConfusion h
  · have hlen0 : 0 < code.length := List.length_pos.mpr hcode
    apply runLoop_inv code hbal fuel s0
    refine ⟨by omega, by omega, ?_⟩
    rw [hl, hi]
    rfl

/-- **C6.** For a source accepted by the validator (`Balanced`, which is
exactly acceptance): the loop-origin stack invariant `StackInv` — the
stack holds exactly the positions of the unmatched `[`s of the executed
prefix, so its depth equals the number of currently entered, not-yet-
exited loops — is preserved by every step of the dispatch loop; whenever
a `]` is dispatched the stack is non-empty, so the pop in the `]`
handler never underflows (the engine never raises the pop-empty-stack
fault); and when `Run` (started, as always, with an empty loop stack)
terminates normally the stack is empty again. -/
theorem c6_stack_invariant (code : List Char) (hbal : Balanced code) :
    (∀ s, StackInv code s → ∀ s1, step code s = .cont s1 → StackInv code s1) ∧
    (∀ s, StackInv code s → code[s.index.toNat]? = some ']' →
      s.loopStack ≠ []) ∧
    (∀ fuel s, StackInv code s →
      runLoop code fuel s ≠ .crash .popEmptyStack ∧
      ∀ s1, runLoop code fuel s = .ok s1 → s1.loopStack = []) ∧
    (∀ b fuel s, s.loopStack = [] →
      Run code b fuel s ≠ .crash .popEmptyStack ∧
      ∀ s1, Run code b fuel s = .ok s1 → s1.loopStack = []) := by
  refine ⟨fun s hinv => (step_inv code hbal s hinv).2.1,
          fun s hinv hc => ?_,
          fun fuel s hinv => runLoop_inv code hbal fuel s hinv,
          fun b fuel s hstk => ?_⟩
  · obtain ⟨h0, hlt, hs⟩ := hinv
    have hd1 : dI code (s.index.toNat + 1) = dI code s.index.toNat - 1 := by
      rw [dI_succ code _ _ hc]
      simp [charDelta, sub_eq_add_neg]
    have hnn : 0 ≤ dI code (s.index.toNat + 1) := hbal.1 _ (by omega)
    have hvl := vstack_length hbal s.index.toNat
    rw [hs]
    intro hemp
    rw [hemp] at hvl
    simp only [List.length_nil, Nat.cast_zero] at hvl
    omega
  · have hv : Validate code = none := (validate_none_iff code).mpr hbal
    unfold Run
    rw [hv]
    dsimp only
    obtain ⟨hw1, hw2⟩ := runWrap_inv code hbal fuel
      ({ (if b then ClearTape s else s) with index := 0 }) rfl
      (by cases b <;> simp [ClearTape, hstk])
    match hrl : runLoop code fuel
        ({ (if b then ClearTape s else s) with index := 0 }) with
    | .ok s3 =>
      dsimp only
      refine ⟨fun h => RunResult.noConfusion h, fun s1 h => ?_⟩
      injection h with h
      subst h
      exact hw2 s3 hrl
    | .err e s3 =>
      dsimp only
      exact ⟨fun h => RunResult.noConfusion h, fun s1 h => RunResult.noConfusion h⟩
    | .crash f =>
      dsimp only
      refine ⟨fun h => ?_, fun s1 h => RunResult.noConfusion h⟩
      injection h with h
      subst h
      exact hw1 hrl
    | .outOfFuel =>
      dsimp only
      exact ⟨fun h => RunResult.noConfusion h, fun s1 h => RunResult.noConfusion h⟩

theorem c6_stack_invariant_witness :
    Run ['[', ']'] false 3 (initState []) ≠ .crash .popEmptyStack :=
  ((c6_stack_invariant ['[', ']'] (by decide)).2.2.2 false 3 (initState [])
    rfl).1

/-- **C4.** Dispatching `[` on a validated (balanced) source: when the
cell at the data pointer is zero the loop body is skipped — the engine
scans forward with a nesting counter starting at 1 that increments on
`[` and decrements on `]`, and the scan succeeds and stops the instant
the counter reaches 0, i.e. at the first position `m` where the bracket
balance returns to its value at the opener (`dI` stays strictly above it
in between and `code[m] = ']'`): the matching `]`.  The dispatch leaves
the instruction pointer exactly on `m` with the loop stack untouched, so
the loop body executes zero times.  When the cell is non-zero the
opener's position is pushed onto the loop-origin stack and nothing else
changes, so execution continues at the next character. -/
theorem c4_open_loop_skip (code : List Char) (s : EngState)
    (hbal : Balanced code) (hlt : s.index.toNat < code.length)
    (hc : code[s.index.toNat]? = some '[') :
    (s.tape s.pointer = 0 →
      ∃ m, skipScan code 1 s.index.toNat = some m ∧
        dispatch code '[' s = .ok { s with index := (m : Int) } ∧
        s.index.toNat < m ∧ m < code.length ∧ code[m]? = some ']' ∧
        dI code (m + 1) = dI code s.index.toNat ∧
        (∀ x, s.index.toNat < x → x ≤ m →
          dI code s.index.toNat < dI code x)) ∧
    (s.tape s.pointer ≠ 0 →
      dispatch code '[' s =
        .ok { s with loopStack := s.index.toNat :: s.loopStack }) := by
  constructor
  · intro hcell
    obtain ⟨m, hm, hmgt, hmlt, hmc, hmd, hmin, hmv⟩ :=
      skipScan_match code hbal s.index.toNat hlt hc
    refine ⟨m, hm, ?_, hmgt, hmlt, hmc, hmd, hmin⟩
    rw [dispatch_obrk, if_pos hcell, hm]
  · intro hcell
    rw [dispatch_obrk, if_neg hcell]

theorem c4_open_loop_skip_witness :
    dispatch ['[', ']'] '[' (initState []) =
      .ok { initState [] with index := ((1 : Nat) : Int) } := by
  obtain ⟨m, hm, hd, -, -, -, -, -⟩ :=
    (c4_open_loop_skip ['[', ']'] (initState []) (by decide) (by decide)
      (by decide)).1 rfl
  have h1 : skipScan ['[', ']'] 1 (initState []).index.toNat = some 1 := by decide
  rw [h1] at hm
  injection hm with hm
  subst hm
  exact hd

/-- **C5.** Dispatching `]` pops the loop-origin stack exactly once.
With popped position `p`: if the cell at the data pointer is non-zero
the instruction pointer is set to `p - 1` so that the loop tail's `+1`
advance (`postStep`) re-lands exactly on `p`; under the run-time stack
invariant (claim C6) `p` is the position of the matching `[` — the most
recent unmatched opener.  If the cell is zero nothing further happens:
only the pop, and execution falls through to the normal advance. -/
theorem c5_close_loop_pop (code : List Char) (s : EngState) (p : Nat)
    (rest : List Nat) (hstk : s.loopStack = p :: rest) :
    (s.tape s.pointer = 0 →
      dispatch code ']' s = .ok { s with loopStack := rest }) ∧
    (s.tape s.pointer ≠ 0 →
      dispatch code ']' s =
        .ok { s with loopStack := rest, index := (p : Int) - 1 } ∧
      ∃ s2,
        (postStep code { s with loopStack := rest, index := (p : Int) - 1 } =
            .halt s2 ∨
          postStep code { s with loopStack := rest, index := (p : Int) - 1 } =
            .cont s2) ∧
        s2.index = (p : Int) ∧ s2.loopStack = rest) ∧
    (s.loopStack = vstack code s.index.toNat →
      code[p]? = some '[' ∧ vstack code p = rest ∧ p < s.index.toNat) := by
  refine ⟨fun hcell => ?_, fun hcell => ⟨?_, ?_⟩, fun hinv => ?_⟩
  · rw [dispatch_cbrk, hstk]
    dsimp only
    rw [if_pos hcell]
  · rw [dispatch_cbrk, hstk]
    dsimp only
    rw [if_neg hcell]
  · unfold postStep
    by_cases hge :
        ({ s with loopStack := rest, index := (p : Int) - 1 } : EngState).index
          + 1 ≥ (code.length : Int)
    · refine ⟨_, Or.inl (by rw [if_pos hge]), ?_, rfl⟩
      dsimp only
      omega
    · refine ⟨_, Or.inr (by rw [if_neg hge]), ?_, rfl⟩
      dsimp only
      omega
  · rw [hstk] at hinv
    exact vstack_suffix code s.index.toNat p rest
      (by rw [← hinv])

/-- A state poised on the `]` of `"[]"` with its opener's position on
the loop stack, used to evaluate the claims about `]` concretely. -/
def atCloseState : EngState :=
  { tape := fun _ => 0, pointer := 0, index := 1, loopStack := [0],
    input := [], output := [] }

theorem c5_close_loop_pop_witness :
    dispatch ['[', ']'] ']' atCloseState =
      .ok { atCloseState with loopStack := [] } ∧
    ['[', ']'][(0 : Nat)]? = some '[' :=
  ⟨(c5_close_loop_pop ['[', ']'] atCloseState 0 [] rfl).1 rfl,
   ((c5_close_loop_pop ['[', ']'] atCloseState 0 [] rfl).2.2 (by decide)).1⟩

end BF
